import Mathlib

/-!
Verification development for the `ubi_agent_sim` agent-based UBI simulation.

The Python source is shallowly embedded over exact rational arithmetic (ℚ in
place of IEEE floats, with every numeric literal of the source carried over
exactly, e.g. the division guard `1e-6` as `1/1000000`).  The process-global
pseudo-random number generator used during population construction is threaded
explicitly as two draw functions (one for ages, one for raw wages), indexed by
person id; everything downstream of construction is deterministic.  Python
dictionaries keyed by dense integer ids become association lists, and the
fallible `persons[pid]` dictionary lookup of household aggregation becomes an
`Option`-valued lookup, so a `KeyError` is modelled as `none`.
-/

namespace UbiSim

/-- Fiscal policy parameters, from `config/policy.py` (defaults
`ubi_amount = 100_000`, `income_tax_rate = 0.2`). -/
structure Policy where
  ubi_amount : ℚ := 100000
  income_tax_rate : ℚ := 1/5
deriving Repr, DecidableEq

/-- Model of the Python `macro_state` dict passed to `Person.step`
(currently always the empty dict, and read by nothing). -/
def MState := List (String × ℚ)

/-- Individual agent state, from `models/person.py`. -/
structure Person where
  id : ℕ
  age : ℕ
  hourly_wage : ℚ
  work_hours : ℚ
  saving : ℚ
  household_id : ℕ
  happiness : ℚ := 5
deriving Repr, DecidableEq

/-- Embedding of `Person.step` from `models/person.py`: the monthly update of
`work_hours`, `saving` and `happiness` (the `mstate` context is accepted
but unused, exactly as in the source). -/
def Person.step (p : Person) (policy : Policy) (mstate : MState) (basic_need : ℚ) : Person :=
  let gap := max 0 (basic_need - policy.ubi_amount)
  let target_hours := gap / (p.hourly_wage * 4 + 1/1000000)
  let work_hours := max 0 (min 60 (7/10 * p.work_hours + 3/10 * target_hours))
  let income_labor := p.hourly_wage * work_hours * 4
  let income_total := income_labor + policy.ubi_amount
  let disposable_income := income_total * (1 - policy.income_tax_rate)
  { p with
    work_hours := work_hours
    saving := p.saving + disposable_income * (1/5)
    happiness := 5 + 1/100000 * income_total - 1/20 * max 0 (work_hours - 40) }

/-- Household state, from `models/household.py` (default
`poverty_line = 200_000`). -/
structure Household where
  id : ℕ
  member_ids : List ℕ := []
  income : ℚ := 0
  poverty_line : ℚ := 200000
deriving Repr, DecidableEq

/-- The generator-sum `sum(persons[pid].hourly_wage * persons[pid].work_hours * 4
for pid in self.member_ids)` of `Household.aggregate`; `none` models the
`KeyError` raised when some member id is absent from the mapping. -/
def laborIncomeSum (persons : List (ℕ × Person)) : List ℕ → Option ℚ
  | [] => some 0
  | pid :: rest => do
    let p ← persons.lookup pid
    let s ← laborIncomeSum persons rest
    pure (p.hourly_wage * p.work_hours * 4 + s)

/-- Embedding of `Household.aggregate` from `models/household.py`: recompute `income` as the
labor-income sum over the member ids, resolved through the supplied person
mapping. -/
def Household.aggregate (h : Household) (persons : List (ℕ × Person)) : Option Household :=
  (laborIncomeSum persons h.member_ids).map fun s => { h with income := s }

/-- The `is_poor` property of `models/household.py`. -/
def Household.is_poor (h : Household) : Bool :=
  decide (h.income < h.poverty_line)

/-- Full population state, from `sim/environment.py`. -/
structure Environment where
  policy : Policy
  persons : List (ℕ × Person)
  households : List (ℕ × Household)
deriving Repr, DecidableEq

/-- Construction of one person inside `Environment.__init__`: initial
`work_hours = 40`, `saving = 0`, and the post-draw wage floor
`if p.hourly_wage < 600: p.hourly_wage = 600`. -/
def mkPerson (pid hid : ℕ) (age : ℕ) (wage : ℚ) : Person :=
  let p : Person :=
    { id := pid, age := age, hourly_wage := wage, work_hours := 40,
      saving := 0, household_id := hid, happiness := 5 }
  if p.hourly_wage < 600 then { p with hourly_wage := 600 } else p

/-- Embedding of `Environment.__init__` from `sim/environment.py`: builds
`n_households × persons_per_household` persons with dense ids
`pid = hid * persons_per_household + k` in creation order, and one household
per `hid` holding its member ids.  `ageDraw pid` and `wageDraw pid` stand for
the `np.random.randint(20, 60)` and `np.random.normal(1500, 500)` draws made
for person `pid`. -/
def Environment.init (n_households persons_per_household : ℕ)
    (ageDraw : ℕ → ℕ) (wageDraw : ℕ → ℚ) : Environment :=
  { policy := {}
    persons :=
      (List.range n_households).flatMap fun hid =>
        (List.range persons_per_household).map fun k =>
          let pid := hid * persons_per_household + k
          (pid, mkPerson pid hid (ageDraw pid) (wageDraw pid))
    households :=
      (List.range n_households).map fun hid =>
        (hid, { id := hid
                member_ids :=
                  (List.range persons_per_household).map fun k =>
                    hid * persons_per_household + k : Household }) }

/-- The person-update phase of `Environment.step`: every person is stepped with
the shared policy, the (empty) context and the fixed basic need. -/
def updateAll (policy : Policy) (mstate : MState) (basic_need : ℚ)
    (persons : List (ℕ × Person)) : List (ℕ × Person) :=
  persons.map fun pp => (pp.1, pp.2.step policy mstate basic_need)

/-- The aggregation phase of `Environment.step`: every household is aggregated
against the supplied person mapping; `none` if any aggregation raises. -/
def aggregateAll (persons : List (ℕ × Person)) :
    List (ℕ × Household) → Option (List (ℕ × Household))
  | [] => some []
  | hh :: rest => do
    let h ← hh.2.aggregate persons
    let rest2 ← aggregateAll persons rest
    pure ((hh.1, h) :: rest2)

/-- Body of `Environment.step` with the basic need as an explicit parameter (it is the
local variable `basic_need` of the source): update all persons, then aggregate
all households from the freshly updated person states. -/
def Environment.stepWith (basic_need : ℚ) (env : Environment) : Option Environment :=
  let persons := updateAll env.policy [] basic_need env.persons
  (aggregateAll persons env.households).map fun hs =>
    { env with persons := persons, households := hs }

/-- Embedding of `Environment.step` from `sim/environment.py`: the basic need is fixed at
`150_000`. -/
def Environment.step (env : Environment) : Option Environment :=
  env.stepWith 150000

/-- The poverty rate computed each iteration of `run_sim`: the count of poor
households over the number of households. -/
def povertyRate (env : Environment) : ℚ :=
  ((env.households.countP fun hh => hh.2.is_poor : ℕ) : ℚ) /
    ((env.households.length : ℕ) : ℚ)

/-- The time-stepping loop of `run_sim`: `n` iterations of
step-then-record-poverty-rate starting from `env`. -/
def runLoop : ℕ → Environment → Option (List ℚ)
  | 0, _ => some []
  | n + 1, env => do
    let env2 ← env.step
    let rest ← runLoop n env2
    pure (povertyRate env2 :: rest)

/-- Embedding of `run_sim` from `sim/runner.py`: one `Environment()` with the default
construction parameters (1000 households of 2), then exactly
`years * steps_per_year` steps, collecting the poverty rate after each. -/
def run_sim (years steps_per_year : ℕ) (ageDraw : ℕ → ℕ) (wageDraw : ℕ → ℚ) :
    Option (List ℚ) :=
  runLoop (years * steps_per_year) (Environment.init 1000 2 ageDraw wageDraw)

/-- Iterated `Environment.step`, for stating invariants that hold after any
number of simulation steps. -/
def stepN : ℕ → Environment → Option Environment
  | 0, env => some env
  | n + 1, env => do
    let env2 ← env.step
    stepN n env2

/-- The new `work_hours` computed by one `Person.step`, as a standalone
function of the pre-step state. -/
def stepWorkHours (p : Person) (policy : Policy) (basic_need : ℚ) : ℚ :=
  max 0 (min 60 (7/10 * p.work_hours +
    3/10 * (max 0 (basic_need - policy.ubi_amount) / (p.hourly_wage * 4 + 1/1000000))))

/-- The `income_total` of one `Person.step`, as a standalone function of the
pre-step state. -/
def stepIncomeTotal (p : Person) (policy : Policy) (basic_need : ℚ) : ℚ :=
  p.hourly_wage * stepWorkHours p policy basic_need * 4 + policy.ubi_amount

/-- The `disposable_income` of one `Person.step`, as a standalone function of
the pre-step state. -/
def stepDisposable (p : Person) (policy : Policy) (basic_need : ℚ) : ℚ :=
  stepIncomeTotal p policy basic_need * (1 - policy.income_tax_rate)

/-- Iterated `Person.step` of a single person under a fixed policy, context
and basic need. -/
def Person.stepN (policy : Policy) (mstate : MState) (basic_need : ℚ) :
    ℕ → Person → Person
  | 0, p => p
  | n + 1, p => Person.stepN policy mstate basic_need n (p.step policy mstate basic_need)

/-- Ownership invariant of an environment: every member id of every household
resolves in the person mapping. -/
def WfEnv (env : Environment) : Prop :=
  ∀ hh ∈ env.households, ∀ pid ∈ hh.2.member_ids, (env.persons.lookup pid).isSome

/-- The per-person invariant of C4: clamped hours and floored wage. -/
def PersonsOk (env : Environment) : Prop :=
  ∀ pp ∈ env.persons,
    0 ≤ pp.2.work_hours ∧ pp.2.work_hours ≤ 60 ∧ 600 ≤ pp.2.hourly_wage

/-- A concrete zero-wage person used to instantiate theorems. -/
def pZero : Person :=
  { id := 0, age := 30, hourly_wage := 0, work_hours := 40, saving := 0,
    household_id := 0 }

/-- A second concrete person used to instantiate theorems. -/
def pOne : Person :=
  { id := 1, age := 40, hourly_wage := 800, work_hours := 40, saving := 0,
    household_id := 0 }

/-- The single person of the spec's hand-computed scenario. -/
def pScen : Person :=
  { id := 0, age := 30, hourly_wage := 1000, work_hours := 40, saving := 0,
    household_id := 0 }

/-- A policy whose UBI exactly covers the basic need. -/
def polUBI : Policy := { ubi_amount := 150000 }

/-- A concrete one-person, one-household environment. -/
def envW : Environment :=
  { policy := {}, persons := [(0, pZero)],
    households := [(0, { id := 0, member_ids := [0] })] }

/-- The state of `envW` after one `Environment.step`. -/
def envW2 : Environment :=
  { policy := {}
    persons := [(0, { id := 0, age := 30, hourly_wage := 0, work_hours := 60, saving := 16000, household_id := 0, happiness := 5 })]
    households := [(0, { id := 0, member_ids := [0], income := 0 })] }

/-- Restatement of `Person.step` with the per-step quantities as standalone
functions of the pre-step state. -/
theorem Person.step_unfold (p : Person) (policy : Policy) (mstate : MState) (basic_need : ℚ) :
    p.step policy mstate basic_need =
      { p with
        work_hours := stepWorkHours p policy basic_need
        saving := p.saving + stepDisposable p policy basic_need * (1/5)
        happiness := 5 + 1/100000 * stepIncomeTotal p policy basic_need -
          1/20 * max 0 (stepWorkHours p policy basic_need - 40) } := rfl

/-- C1: `Person.step` performs exactly the five-step update of spec §4.2 —
`work_hours` becomes the clamped smoothed target, `saving` grows by
`income_total * (1 − tax) * 0.2` where `income_total` is the labor income at
the *new* hours plus the UBI, `happiness` is recomputed from the new
`income_total` and `work_hours` — and every other field (`id`, `age`,
`hourly_wage`, `household_id`) is untouched; and on the spec's hand-computed
single-person scenario (`hourly_wage = 1000`, `work_hours = 40`, `saving = 0`,
default policy, `basic_need = 150000`) one step produces exactly the
hand-derived values. -/
theorem person_step_five_step_algorithm (p : Person) (policy : Policy)
    (mstate : MState) (basic_need : ℚ) :
    (p.step policy mstate basic_need).work_hours =
      max 0 (min 60 (7/10 * p.work_hours +
        3/10 * (max 0 (basic_need - policy.ubi_amount) /
          (p.hourly_wage * 4 + 1/1000000)))) ∧
    (p.step policy mstate basic_need).saving =
      p.saving + (p.hourly_wage * (p.step policy mstate basic_need).work_hours * 4 +
        policy.ubi_amount) * (1 - policy.income_tax_rate) * (1/5) ∧
    (p.step policy mstate basic_need).happiness =
      5 + 1/100000 * (p.hourly_wage * (p.step policy mstate basic_need).work_hours * 4 +
        policy.ubi_amount) -
        1/20 * max 0 ((p.step policy mstate basic_need).work_hours - 40) ∧
    (p.step policy mstate basic_need).id = p.id ∧
    (p.step policy mstate basic_need).age = p.age ∧
    (p.step policy mstate basic_need).hourly_wage = p.hourly_wage ∧
    (p.step policy mstate basic_need).household_id = p.household_id ∧
    (({ id := 0, age := 30, hourly_wage := 1000, work_hours := 40, saving := 0,
        household_id := 0 : Person }).step {} [] 150000).work_hours =
      7/10 * 40 + 3/10 * (50000 / (4000 + 1/1000000)) ∧
    (({ id := 0, age := 30, hourly_wage := 1000, work_hours := 40, saving := 0,
        household_id := 0 : Person }).step {} [] 150000).saving =
      (1000 * (7/10 * 40 + 3/10 * (50000 / (4000 + 1/1000000))) * 4 + 100000) *
        (1 - 1/5) * (1/5) ∧
    (({ id := 0, age := 30, hourly_wage := 1000, work_hours := 40, saving := 0,
        household_id := 0 : Person }).step {} [] 150000).happiness =
      5 + 1/100000 *
        (1000 * (7/10 * 40 + 3/10 * (50000 / (4000 + 1/1000000))) * 4 + 100000) := by
  refine ⟨rfl, rfl, rfl, rfl, rfl, rfl, rfl, ?_, ?_, ?_⟩
  · show max 0 (min 60 (7/10 * 40 + 3/10 * (max 0 ((150000 : ℚ) - 100000) / (1000 * 4 + 1/1000000)))) = _
    norm_num
  · show (0 : ℚ) + (1000 * max 0 (min 60 (7/10 * 40 + 3/10 * (max 0 ((150000 : ℚ) - 100000) / (1000 * 4 + 1/1000000)))) * 4 + 100000) * (1 - 1/5) * (1/5) = _
    norm_num
  · show (5 : ℚ) + 1/100000 * (1000 * max 0 (min 60 (7/10 * 40 + 3/10 * (max 0 ((150000 : ℚ) - 100000) / (1000 * 4 + 1/1000000)))) * 4 + 100000) - 1/20 * max 0 (max 0 (min 60 (7/10 * 40 + 3/10 * (max 0 ((150000 : ℚ) - 100000) / (1000 * 4 + 1/1000000)))) - 40) = _
    norm_num

/-- The new work hours are clamped into `[0, 60]` by construction. -/
theorem stepWorkHours_nonneg (p : Person) (policy : Policy) (basic_need : ℚ) :
    0 ≤ stepWorkHours p policy basic_need :=
  le_max_left 0 _

theorem stepWorkHours_le (p : Person) (policy : Policy) (basic_need : ℚ) :
    stepWorkHours p policy basic_need ≤ 60 :=
  max_le (by norm_num) (min_le_left _ _)

/-- C5: one `Person.step` changes `saving` only by adding
`disposable_income * 0.2`; hence `saving` is non-decreasing whenever that
step's disposable income is non-negative, and in particular whenever
`income_tax_rate ≤ 1` and the UBI amount and the wage are non-negative. -/
theorem person_step_saving_monotone (p : Person) (policy : Policy)
    (mstate : MState) (basic_need : ℚ) :
    ((p.step policy mstate basic_need).saving =
      p.saving + stepDisposable p policy basic_need * (1/5)) ∧
    (0 ≤ stepDisposable p policy basic_need →
      p.saving ≤ (p.step policy mstate basic_need).saving) ∧
    (policy.income_tax_rate ≤ 1 → 0 ≤ policy.ubi_amount → 0 ≤ p.hourly_wage →
      p.saving ≤ (p.step policy mstate basic_need).saving) := by
  refine ⟨rfl, ?_, ?_⟩
  · intro hd
    have : (p.step policy mstate basic_need).saving =
        p.saving + stepDisposable p policy basic_need * (1/5) := rfl
    rw [this]
    nlinarith
  · intro htax hubi hw
    have hd : 0 ≤ stepDisposable p policy basic_need := by
      unfold stepDisposable stepIncomeTotal
      have h1 : 0 ≤ p.hourly_wage * stepWorkHours p policy basic_need * 4 :=
        mul_nonneg (mul_nonneg hw (stepWorkHours_nonneg p policy basic_need)) (by norm_num)
      have h2 : 0 ≤ 1 - policy.income_tax_rate := by linarith
      nlinarith
    have : (p.step policy mstate basic_need).saving =
        p.saving + stepDisposable p policy basic_need * (1/5) := rfl
    rw [this]
    nlinarith

/-- Under a UBI that exactly covers the basic need, one step multiplies
in-range work hours by exactly 0.7 (neither clamp binds). -/
theorem step_workHours_decay (p : Person) (policy : Policy) (mstate : MState)
    (hubi : policy.ubi_amount = 150000)
    (h0 : 0 ≤ p.work_hours) (h60 : p.work_hours ≤ 60) :
    (p.step policy mstate 150000).work_hours = 7/10 * p.work_hours := by
  have : (p.step policy mstate 150000).work_hours = stepWorkHours p policy 150000 := rfl
  rw [this]
  unfold stepWorkHours
  rw [hubi]
  have hgap : max 0 ((150000 : ℚ) - 150000) = 0 := by norm_num
  rw [hgap, zero_div, mul_zero, add_zero]
  have hmin : min 60 (7/10 * p.work_hours) = 7/10 * p.work_hours :=
    min_eq_right (by linarith)
  rw [hmin]
  exact max_eq_right (by linarith)

/-- One `Person.step` never changes the wage. -/
theorem person_step_wage (p : Person) (policy : Policy) (mstate : MState)
    (basic_need : ℚ) : (p.step policy mstate basic_need).hourly_wage = p.hourly_wage := rfl

/-- Iterated stepping never changes the wage. -/
theorem person_stepN_wage (policy : Policy) (mstate : MState) (basic_need : ℚ) :
    ∀ (t : ℕ) (p : Person),
      (Person.stepN policy mstate basic_need t p).hourly_wage = p.hourly_wage := by
  intro t
  induction t with
  | zero => intro p; rfl
  | succ n ih =>
    intro p
    show (Person.stepN policy mstate basic_need n
      (p.step policy mstate basic_need)).hourly_wage = _
    rw [ih]
    rfl

/-- Geometric decay of work hours under a need-covering UBI, for any
in-range starting hours. -/
theorem stepN_workHours_decay (policy : Policy) (mstate : MState)
    (hubi : policy.ubi_amount = 150000) :
    ∀ (t : ℕ) (p : Person), 0 ≤ p.work_hours → p.work_hours ≤ 60 →
      (Person.stepN policy mstate 150000 t p).work_hours = (7/10) ^ t * p.work_hours := by
  intro t
  induction t with
  | zero => intro p _ _; simp [Person.stepN]
  | succ n ih =>
    intro p h0 h60
    have hstep := step_workHours_decay p policy mstate hubi h0 h60
    have h0' : 0 ≤ (p.step policy mstate 150000).work_hours := by rw [hstep]; linarith
    have h60' : (p.step policy mstate 150000).work_hours ≤ 60 := by rw [hstep]; linarith
    show (Person.stepN policy mstate 150000 n (p.step policy mstate 150000)).work_hours = _
    rw [ih (p.step policy mstate 150000) h0' h60', hstep]
    ring

/-- C7: when `policy.ubi_amount = 150000 = basic_need`, the gap and target
hours are zero for every person, a person starting from `work_hours = 40` has
exactly `40 * 0.7^t` hours after `t` steps, so the labor income after `t`
steps is `hourly_wage * 40 * 0.7^t * 4` and is non-increasing in `t` for a
non-negative wage, while the UBI component of `income_total` stays constant
at `150000`. -/
theorem ubi_covers_need_decay (policy : Policy) (mstate : MState) (p : Person)
    (t : ℕ) (hubi : policy.ubi_amount = 150000) (hwh : p.work_hours = 40) :
    max 0 (150000 - policy.ubi_amount) = 0 ∧
    max 0 (150000 - policy.ubi_amount) / (p.hourly_wage * 4 + 1/1000000) = 0 ∧
    (Person.stepN policy mstate 150000 t p).work_hours = 40 * (7/10 : ℚ) ^ t ∧
    p.hourly_wage * (Person.stepN policy mstate 150000 t p).work_hours * 4 =
      p.hourly_wage * (40 * (7/10 : ℚ) ^ t) * 4 ∧
    (0 ≤ p.hourly_wage →
      p.hourly_wage * (Person.stepN policy mstate 150000 (t + 1) p).work_hours * 4 ≤
        p.hourly_wage * (Person.stepN policy mstate 150000 t p).work_hours * 4) ∧
    stepIncomeTotal (Person.stepN policy mstate 150000 t p) policy 150000 =
      p.hourly_wage *
        stepWorkHours (Person.stepN policy mstate 150000 t p) policy 150000 * 4 +
        150000 := by
  have hgap : max 0 ((150000 : ℚ) - policy.ubi_amount) = 0 := by rw [hubi]; norm_num
  have hdecay : ∀ s : ℕ, (Person.stepN policy mstate 150000 s p).work_hours =
      40 * (7/10 : ℚ) ^ s := by
    intro s
    rw [stepN_workHours_decay policy mstate hubi s p (by rw [hwh]; norm_num)
      (by rw [hwh]; norm_num), hwh]
    ring
  refine ⟨hgap, by rw [hgap, zero_div], hdecay t, by rw [hdecay t], ?_, ?_⟩
  · intro hw
    rw [hdecay t, hdecay (t + 1)]
    have hpow : (7/10 : ℚ) ^ (t + 1) ≤ (7/10 : ℚ) ^ t := by
      rw [pow_succ]
      nlinarith [pow_nonneg (by norm_num : (0:ℚ) ≤ 7/10) t]
    nlinarith [pow_nonneg (by norm_num : (0:ℚ) ≤ 7/10) t]
  · unfold stepIncomeTotal
    rw [person_stepN_wage, hubi]

/-- A lookup succeeds exactly when the key occurs in the key list. -/
theorem lookup_isSome_iff (ps : List (ℕ × Person)) (a : ℕ) :
    (ps.lookup a).isSome ↔ a ∈ ps.map Prod.fst := by
  induction ps with
  | nil => simp [List.lookup]
  | cons hd tl ih =>
    obtain ⟨k, v⟩ := hd
    by_cases h : a = k
    · subst h
      simp [List.lookup_cons]
    · have hbeq : (a == k) = false := beq_false_of_ne h
      simp [List.lookup_cons, hbeq, h, ih]

/-- Looking up in the updated person list is updating the looked-up person. -/
theorem lookup_updateAll (policy : Policy) (mstate : MState) (basic_need : ℚ)
    (ps : List (ℕ × Person)) (a : ℕ) :
    (updateAll policy mstate basic_need ps).lookup a =
      (ps.lookup a).map fun p => p.step policy mstate basic_need := by
  induction ps with
  | nil => rfl
  | cons hd tl ih =>
    obtain ⟨k, v⟩ := hd
    by_cases h : a = k
    · subst h
      simp [updateAll, List.lookup_cons]
    · have hbeq : (a == k) = false := beq_false_of_ne h
      simp only [updateAll, List.map_cons, List.lookup_cons, hbeq]
      exact ih

/-- The person update phase keeps the key list unchanged. -/
theorem updateAll_keys (policy : Policy) (mstate : MState) (basic_need : ℚ)
    (ps : List (ℕ × Person)) :
    (updateAll policy mstate basic_need ps).map Prod.fst = ps.map Prod.fst := by
  induction ps with
  | nil => rfl
  | cons hd tl ih => simp only [updateAll, List.map_cons] at ih ⊢; rw [ih]

/-- On duplicate-free key lists, lookup is invariant under permutation. -/
theorem lookup_perm {l₁ l₂ : List (ℕ × Person)} (hp : l₁.Perm l₂)
    (hn : (l₁.map Prod.fst).Nodup) (a : ℕ) : l₁.lookup a = l₂.lookup a := by
  induction hp with
  | nil => rfl
  | cons x hperm ih =>
    obtain ⟨k, v⟩ := x
    simp only [List.map_cons, List.nodup_cons] at hn
    by_cases h : a = k
    · subst h; simp [List.lookup_cons]
    · have hbeq : (a == k) = false := beq_false_of_ne h
      simp only [List.lookup_cons, hbeq]
      exact ih hn.2
  | swap x y l =>
    obtain ⟨k₁, v₁⟩ := x
    obtain ⟨k₂, v₂⟩ := y
    simp only [List.map_cons, List.nodup_cons, List.mem_cons] at hn
    have hne : k₂ ≠ k₁ := fun h => hn.1 (Or.inl h)
    by_cases h1 : a = k₂
    · subst h1
      have hbeq : (a == k₁) = false := beq_false_of_ne hne
      simp [List.lookup_cons, hbeq]
    · by_cases h2 : a = k₁
      · subst h2
        have hbeq : (a == k₂) = false := beq_false_of_ne h1
        simp [List.lookup_cons, hbeq]
      · have hb1 : (a == k₂) = false := beq_false_of_ne h1
        have hb2 : (a == k₁) = false := beq_false_of_ne h2
        simp [List.lookup_cons, hb1, hb2]
  | trans hp₁ hp₂ ih₁ ih₂ =>
    have hn₂ : (_ : List (ℕ × Person)).map Prod.fst |>.Nodup :=
      ((hp₁.map Prod.fst).nodup_iff).mp hn
    rw [ih₁ hn, ih₂ hn₂]

/-- The member sum only depends on the mapping through its lookups. -/
theorem laborIncomeSum_congr {ps₁ ps₂ : List (ℕ × Person)}
    (h : ∀ a, ps₁.lookup a = ps₂.lookup a) (ids : List ℕ) :
    laborIncomeSum ps₁ ids = laborIncomeSum ps₂ ids := by
  induction ids with
  | nil => rfl
  | cons pid rest ih => simp only [laborIncomeSum, h pid, ih]

/-- C6: `Environment.step` is order-independent over persons — a person's
update reads nothing from `macro_state` (stepping with any two contexts
agrees), and updating a duplicate-free person list in any permuted order
yields the same mapping (pointwise equal lookups), hence identical results
for every household aggregation. -/
theorem step_order_independent (policy : Policy) (basic_need : ℚ)
    (ps₁ ps₂ : List (ℕ × Person)) (hp : ps₁.Perm ps₂)
    (hn : (ps₁.map Prod.fst).Nodup) :
    (∀ (p : Person) (m₁ m₂ : MState), p.step policy m₁ basic_need = p.step policy m₂ basic_need) ∧
    (∀ a : ℕ, (updateAll policy [] basic_need ps₁).lookup a =
      (updateAll policy [] basic_need ps₂).lookup a) ∧
    (∀ h : Household, h.aggregate (updateAll policy [] basic_need ps₁) =
      h.aggregate (updateAll policy [] basic_need ps₂)) := by
  have hlook : ∀ a : ℕ, (updateAll policy [] basic_need ps₁).lookup a =
      (updateAll policy [] basic_need ps₂).lookup a := by
    intro a
    rw [lookup_updateAll, lookup_updateAll, lookup_perm hp hn a]
  exact ⟨fun _ _ _ => rfl, hlook, fun h => by
    unfold Household.aggregate
    rw [laborIncomeSum_congr hlook h.member_ids]⟩

/-- Unfolding equation for the member sum on a non-empty id list. -/
theorem laborIncomeSum_cons (ps : List (ℕ × Person)) (pid : ℕ) (rest : List ℕ) :
    laborIncomeSum ps (pid :: rest) =
      (ps.lookup pid).bind fun p => (laborIncomeSum ps rest).bind fun s =>
        some (p.hourly_wage * p.work_hours * 4 + s) := rfl

/-- The member sum fails exactly when some member id is missing from the
person mapping. -/
theorem laborIncomeSum_eq_none_iff (ps : List (ℕ × Person)) (ids : List ℕ) :
    laborIncomeSum ps ids = none ↔ ∃ pid ∈ ids, ps.lookup pid = none := by
  induction ids with
  | nil =>
    constructor
    · intro hcon
      exact Option.noConfusion hcon
    · rintro ⟨q, hq, -⟩
      exact absurd hq (List.not_mem_nil q)
  | cons pid rest ih =>
    rw [laborIncomeSum_cons]
    cases hl : ps.lookup pid with
    | none =>
      constructor
      · intro _
        exact ⟨pid, List.mem_cons_self pid rest, hl⟩
      · intro _
        rfl
    | some p =>
      cases hs : laborIncomeSum ps rest with
      | none =>
        constructor
        · intro _
          obtain ⟨q, hq, hqn⟩ := ih.mp hs
          exact ⟨q, List.mem_cons_of_mem pid hq, hqn⟩
        · intro _
          rfl
      | some s =>
        constructor
        · intro hcon
          exact Option.noConfusion hcon
        · rintro ⟨q, hq, hqn⟩
          rcases List.mem_cons.mp hq with rfl | hq2
          · rw [hl] at hqn
            exact Option.noConfusion hqn
          · have hcon := ih.mpr ⟨q, hq2, hqn⟩
            rw [hs] at hcon
            exact Option.noConfusion hcon

/-- Aggregation fails exactly when some member id is missing. -/
theorem aggregate_eq_none_iff (h : Household) (ps : List (ℕ × Person)) :
    h.aggregate ps = none ↔ ∃ pid ∈ h.member_ids, ps.lookup pid = none := by
  rw [← laborIncomeSum_eq_none_iff ps h.member_ids]
  unfold Household.aggregate
  cases laborIncomeSum ps h.member_ids with
  | none => exact ⟨fun _ => rfl, fun _ => rfl⟩
  | some s =>
    exact ⟨fun hcon => Option.noConfusion hcon, fun hcon => Option.noConfusion hcon⟩

/-- A successful aggregation keeps `id`, `member_ids` and `poverty_line`,
and stores exactly the member labor-income sum in `income`. -/
theorem aggregate_some_fields (h h' : Household) (ps : List (ℕ × Person))
    (e : h.aggregate ps = some h') :
    h'.id = h.id ∧ h'.member_ids = h.member_ids ∧ h'.poverty_line = h.poverty_line ∧
      laborIncomeSum ps h.member_ids = some h'.income := by
  unfold Household.aggregate at e
  cases hs : laborIncomeSum ps h.member_ids with
  | none =>
    rw [hs] at e
    exact Option.noConfusion e
  | some s =>
    rw [hs] at e
    have e2 : ({ h with income := s } : Household) = h' := Option.some.inj e
    subst e2
    exact ⟨rfl, rfl, rfl, rfl⟩

/-- Unfolding equation for the aggregation pass on a non-empty list. -/
theorem aggregateAll_cons (ps : List (ℕ × Person)) (hd : ℕ × Household)
    (tl : List (ℕ × Household)) :
    aggregateAll ps (hd :: tl) =
      (hd.2.aggregate ps).bind fun h => (aggregateAll ps tl).bind fun rest2 =>
        some ((hd.1, h) :: rest2) := rfl

/-- Every household of a successful aggregation pass comes from aggregating
a household of the input list with the same key. -/
theorem aggregateAll_mem {ps : List (ℕ × Person)} :
    ∀ {hs hs' : List (ℕ × Household)}, aggregateAll ps hs = some hs' →
      ∀ hh ∈ hs', ∃ hh₀ ∈ hs, hh₀.1 = hh.1 ∧ hh₀.2.aggregate ps = some hh.2 := by
  intro hs
  induction hs with
  | nil =>
    intro hs' e hh hmem
    have e2 : ([] : List (ℕ × Household)) = hs' := Option.some.inj e
    subst e2
    exact absurd hmem (List.not_mem_nil hh)
  | cons hd tl ih =>
    intro hs' e hh hmem
    rw [aggregateAll_cons] at e
    cases ha : hd.2.aggregate ps with
    | none =>
      rw [ha] at e
      exact Option.noConfusion e
    | some h1 =>
      rw [ha] at e
      cases hr : aggregateAll ps tl with
      | none =>
        rw [hr] at e
        exact Option.noConfusion e
      | some rest2 =>
        rw [hr] at e
        have e2 : (hd.1, h1) :: rest2 = hs' := Option.some.inj e
        subst e2
        rcases List.mem_cons.mp hmem with hhd | htl
        · subst hhd
          exact ⟨hd, List.mem_cons_self hd tl, rfl, ha⟩
        · obtain ⟨hh₀, hmem₀, hfst, hagg⟩ := ih hr hh htl
          exact ⟨hh₀, List.mem_cons_of_mem hd hmem₀, hfst, hagg⟩

/-- If every household's aggregation succeeds, the whole pass succeeds. -/
theorem aggregateAll_isSome {ps : List (ℕ × Person)} :
    ∀ {hs : List (ℕ × Household)},
      (∀ hh ∈ hs, (hh.2.aggregate ps).isSome) →
      ∃ hs', aggregateAll ps hs = some hs' := by
  intro hs
  induction hs with
  | nil => intro _; exact ⟨[], rfl⟩
  | cons hd tl ih =>
    intro h
    obtain ⟨h1, ha⟩ := Option.isSome_iff_exists.mp (h hd (List.mem_cons_self hd tl))
    obtain ⟨rest2, hr⟩ := ih fun hh hmem => h hh (List.mem_cons_of_mem hd hmem)
    refine ⟨(hd.1, h1) :: rest2, ?_⟩
    rw [aggregateAll_cons, ha, hr]
    rfl

/-- A successful `Environment.step` updates the persons and replaces the
households by the aggregation of the updated persons. -/
theorem step_some_elim (env env' : Environment) (h : env.step = some env') :
    env'.policy = env.policy ∧
    env'.persons = updateAll env.policy [] 150000 env.persons ∧
    aggregateAll (updateAll env.policy [] 150000 env.persons) env.households =
      some env'.households := by
  have h2 : Option.map (fun hs => { policy := env.policy, persons := updateAll env.policy [] 150000 env.persons, households := hs : Environment }) (aggregateAll (updateAll env.policy [] 150000 env.persons) env.households) = some env' := h
  cases e : aggregateAll (updateAll env.policy [] 150000 env.persons) env.households with
  | none =>
    rw [e] at h2
    exact Option.noConfusion h2
  | some hs =>
    rw [e] at h2
    have e2 : ({ policy := env.policy, persons := updateAll env.policy [] 150000 env.persons, households := hs : Environment }) = env' := Option.some.inj h2
    subst e2
    exact ⟨rfl, rfl, rfl⟩

/-- C2: after any successful `Environment.step`, every household's stored
`income` equals the member labor-income sum
`hourly_wage * work_hours * 4` recomputed against the post-step person
states (all persons are updated before any household aggregates). -/
theorem step_aggregation_consistency (env env' : Environment)
    (h : env.step = some env') :
    ∀ hh ∈ env'.households,
      laborIncomeSum env'.persons hh.2.member_ids = some hh.2.income := by
  obtain ⟨-, hpers, hagg⟩ := step_some_elim env env' h
  intro hh hmem
  obtain ⟨hh₀, hmem₀, hfst, ha⟩ := aggregateAll_mem hagg hh hmem
  obtain ⟨-, hids, -, hsum⟩ := aggregate_some_fields _ _ _ ha
  rw [hpers, hids, hsum]

/-- Mapping an `Option` preserves definedness. -/
theorem isSome_option_map {α β : Type} (f : α → β) (x : Option α) :
    (x.map f).isSome = x.isSome := by
  cases x <;> rfl

/-- Unfolding of `Environment.step` as an explicit map over the aggregation pass. -/
theorem environment_step_unfold (env : Environment) :
    env.step = Option.map (fun hs => { policy := env.policy, persons := updateAll env.policy [] 150000 env.persons, households := hs : Environment }) (aggregateAll (updateAll env.policy [] 150000 env.persons) env.households) := rfl

/-- Aggregation succeeds when every member id resolves. -/
theorem aggregate_isSome (h : Household) (ps : List (ℕ × Person))
    (hm : ∀ pid ∈ h.member_ids, (ps.lookup pid).isSome) :
    (h.aggregate ps).isSome := by
  rw [← Option.ne_none_iff_isSome]
  intro hnone
  obtain ⟨pid, hpid, hl⟩ := (aggregate_eq_none_iff h ps).mp hnone
  have hsome := hm pid hpid
  rw [hl] at hsome
  exact Bool.noConfusion hsome

/-- Under the ownership invariant, one step succeeds. -/
theorem step_isSome_of_wf {env : Environment} (hwf : WfEnv env) :
    ∃ env', env.step = some env' := by
  have hagg : ∀ hh ∈ env.households,
      ((hh.2.aggregate (updateAll env.policy [] 150000 env.persons)).isSome : Prop) := by
    intro hh hmem
    refine aggregate_isSome _ _ fun pid hpid => ?_
    rw [lookup_updateAll, isSome_option_map]
    exact hwf hh hmem pid hpid
  obtain ⟨hs', he⟩ := aggregateAll_isSome hagg
  exact ⟨{ policy := env.policy, persons := updateAll env.policy [] 150000 env.persons, households := hs' }, by rw [environment_step_unfold, he]; rfl⟩

/-- One step preserves the ownership invariant. -/
theorem step_preserves_wf {env env' : Environment} (hwf : WfEnv env)
    (h : env.step = some env') : WfEnv env' := by
  obtain ⟨-, hpers, hagg⟩ := step_some_elim env env' h
  intro hh hmem pid hpid
  obtain ⟨hh₀, hmem₀, -, ha⟩ := aggregateAll_mem hagg hh hmem
  obtain ⟨-, hids, -, -⟩ := aggregate_some_fields _ _ _ ha
  rw [hids] at hpid
  rw [hpers, lookup_updateAll, isSome_option_map]
  exact hwf hh₀ hmem₀ pid hpid

/-- Unfolding equation for iterated stepping. -/
theorem stepN_succ (t : ℕ) (env : Environment) :
    stepN (t + 1) env = (env.step).bind (stepN t) := rfl

/-- Under the ownership invariant, any number of steps succeeds and
preserves the invariant. -/
theorem stepN_wf {env : Environment} (hwf : WfEnv env) :
    ∀ t : ℕ, ∃ env', stepN t env = some env' ∧ WfEnv env' := by
  intro t
  induction t generalizing env with
  | zero => exact ⟨env, rfl, hwf⟩
  | succ n ih =>
    obtain ⟨env₁, hstep⟩ := step_isSome_of_wf hwf
    have hwf₁ : WfEnv env₁ := step_preserves_wf hwf hstep
    obtain ⟨env', h2, hwf'⟩ := ih hwf₁
    refine ⟨env', ?_, hwf'⟩
    rw [stepN_succ, hstep]
    exact h2

/-- The key list of the constructed person mapping: the dense ids
`hid * persons_per_household + k`. -/
theorem init_persons_keys (n pk : ℕ) (d : ℕ → ℕ) (w : ℕ → ℚ) :
    (Environment.init n pk d w).persons.map Prod.fst =
      (List.range n).flatMap fun hid => (List.range pk).map fun k => hid * pk + k := by
  simp only [Environment.init, List.map_flatMap, List.map_map]
  rfl

/-- Construction establishes the ownership invariant: every member id of
every constructed household is a key of the constructed person mapping. -/
theorem init_wf (n pk : ℕ) (d : ℕ → ℕ) (w : ℕ → ℚ) :
    WfEnv (Environment.init n pk d w) := by
  intro hh hmem pid hpid
  rw [lookup_isSome_iff, init_persons_keys]
  simp only [Environment.init] at hmem
  obtain ⟨hid, hhid, heq⟩ := List.mem_map.mp hmem
  subst heq
  obtain ⟨k, hk, hpd⟩ := List.mem_map.mp hpid
  exact List.mem_flatMap.mpr ⟨hid, hhid, List.mem_map.mpr ⟨k, hk, hpd⟩⟩

/-- C8: `Household.aggregate` raises (returns `none`) exactly when some
member id is absent from the supplied person mapping; construction puts
every member id of every household into the person mapping, the invariant
is preserved by stepping, and consequently every run of any number of
steps from a constructed environment succeeds — the error branch is
unreachable. -/
theorem aggregate_failure_unreachable :
    (∀ (h : Household) (ps : List (ℕ × Person)),
      h.aggregate ps = none ↔ ∃ pid ∈ h.member_ids, ps.lookup pid = none) ∧
    (∀ (n pk : ℕ) (d : ℕ → ℕ) (w : ℕ → ℚ), WfEnv (Environment.init n pk d w)) ∧
    (∀ (n pk : ℕ) (d : ℕ → ℕ) (w : ℕ → ℚ) (t : ℕ),
      ∃ env', stepN t (Environment.init n pk d w) = some env') :=
  ⟨aggregate_eq_none_iff, init_wf,
    fun n pk d w t => ((stepN_wf (init_wf n pk d w) t).imp fun _ h => h.1)⟩

/-- A freshly constructed person starts at 40 hours with a wage floored
at 600. -/
theorem mkPerson_ok (pid hid : ℕ) (a : ℕ) (w : ℚ) :
    0 ≤ (mkPerson pid hid a w).work_hours ∧
      (mkPerson pid hid a w).work_hours ≤ 60 ∧
      600 ≤ (mkPerson pid hid a w).hourly_wage := by
  unfold mkPerson
  by_cases h : w < 600
  · rw [if_pos h]
    exact ⟨by norm_num, by norm_num, le_refl 600⟩
  · rw [if_neg h]
    exact ⟨by norm_num, by norm_num, le_of_not_lt h⟩

/-- Construction establishes the per-person invariant. -/
theorem init_personsOk (n pk : ℕ) (d : ℕ → ℕ) (w : ℕ → ℚ) :
    PersonsOk (Environment.init n pk d w) := by
  intro pp hmem
  simp only [Environment.init] at hmem
  obtain ⟨hid, -, hmem2⟩ := List.mem_flatMap.mp hmem
  obtain ⟨k, -, heq⟩ := List.mem_map.mp hmem2
  rw [← heq]
  exact mkPerson_ok _ _ _ _

/-- One step preserves the per-person invariant (the new hours are clamped
into `[0, 60]`; the wage is never written). -/
theorem step_preserves_personsOk {env env' : Environment} (hok : PersonsOk env)
    (h : env.step = some env') : PersonsOk env' := by
  obtain ⟨-, hpers, -⟩ := step_some_elim env env' h
  intro pp hmem
  rw [hpers] at hmem
  obtain ⟨pp₀, hmem₀, heq⟩ := List.mem_map.mp hmem
  rw [← heq]
  exact ⟨stepWorkHours_nonneg pp₀.2 env.policy 150000,
    stepWorkHours_le pp₀.2 env.policy 150000,
    le_of_le_of_eq (hok pp₀ hmem₀).2.2
      (person_step_wage pp₀.2 env.policy [] 150000).symm⟩

/-- Any number of steps preserves the per-person invariant. -/
theorem stepN_personsOk :
    ∀ (t : ℕ) {env env' : Environment}, PersonsOk env →
      stepN t env = some env' → PersonsOk env' := by
  intro t
  induction t with
  | zero =>
    intro env env' hok h
    have e : env = env' := Option.some.inj h
    rw [← e]
    exact hok
  | succ n ih =>
    intro env env' hok h
    rw [stepN_succ] at h
    cases hstep : env.step with
    | none =>
      rw [hstep] at h
      exact Option.noConfusion h
    | some env₁ =>
      rw [hstep] at h
      exact ih (step_preserves_personsOk hok hstep) h

/-- C4: for every person, `work_hours` lies in `[0, 60]` and
`hourly_wage ≥ 600` at population construction and after every number of
simulation steps (the wage floor is applied once at construction and the
wage is never written again). -/
theorem work_hours_wage_invariant (n pk : ℕ) (d : ℕ → ℕ) (w : ℕ → ℚ) (t : ℕ)
    (env' : Environment) (h : stepN t (Environment.init n pk d w) = some env') :
    ∀ pp ∈ env'.persons,
      0 ≤ pp.2.work_hours ∧ pp.2.work_hours ≤ 60 ∧ 600 ≤ pp.2.hourly_wage :=
  stepN_personsOk t (init_personsOk n pk d w) h

/-- The poverty rate is always a fraction in `[0, 1]`. -/
theorem povertyRate_bounds (env : Environment) :
    0 ≤ povertyRate env ∧ povertyRate env ≤ 1 := by
  unfold povertyRate
  constructor
  · exact div_nonneg (Nat.cast_nonneg _) (Nat.cast_nonneg _)
  · rcases Nat.eq_zero_or_pos env.households.length with hz | hpos
    · rw [hz]
      norm_num
    · rw [div_le_one (by exact_mod_cast hpos)]
      exact_mod_cast List.countP_le_length _

/-- Unfolding equation for the run loop. -/
theorem runLoop_succ (t : ℕ) (env : Environment) :
    runLoop (t + 1) env = (env.step).bind fun env2 =>
      (runLoop t env2).bind fun rest => some (povertyRate env2 :: rest) := rfl

/-- Under the ownership invariant, the run loop returns exactly `t` poverty
rates, each in `[0, 1]`. -/
theorem runLoop_ok :
    ∀ (t : ℕ) {env : Environment}, WfEnv env →
      ∃ l, runLoop t env = some l ∧ l.length = t ∧ ∀ r ∈ l, 0 ≤ r ∧ r ≤ 1 := by
  intro t
  induction t with
  | zero =>
    intro env _
    exact ⟨[], rfl, rfl, fun r hr => absurd hr (List.not_mem_nil r)⟩
  | succ n ih =>
    intro env hwf
    obtain ⟨env₁, hstep⟩ := step_isSome_of_wf hwf
    obtain ⟨l, hl, hlen, hb⟩ := ih (step_preserves_wf hwf hstep)
    refine ⟨povertyRate env₁ :: l, ?_, ?_, ?_⟩
    · rw [runLoop_succ, hstep]
      show (runLoop n env₁).bind _ = _
      rw [hl]
      rfl
    · rw [List.length_cons, hlen]
    · intro r hr
      rcases List.mem_cons.mp hr with hr1 | hr2
      · rw [hr1]
        exact povertyRate_bounds env₁
      · exact hb r hr2

/-- C3: for positive `Y` and `S`, `run_sim Y S` succeeds and returns an
ordered sequence of exactly `Y * S` poverty rates, each a fraction in
`[0, 1]` (no early termination, no convergence check). -/
theorem run_sim_length_and_bounds (Y S : ℕ) (d : ℕ → ℕ) (w : ℕ → ℚ)
    (hY : 0 < Y) (hS : 0 < S) :
    ∃ l, run_sim Y S d w = some l ∧ l.length = Y * S ∧
      ∀ r ∈ l, 0 ≤ r ∧ r ≤ 1 :=
  runLoop_ok (Y * S) (init_wf 1000 2 d w)

/-- C9: the poverty-rate sequence is a deterministic function of the
construction draws — identical draws give identical output, since
everything downstream of the draws (stepping, aggregation, poverty
counting) is a pure function of the constructed state. -/
theorem run_sim_deterministic (Y S : ℕ) (d₁ d₂ : ℕ → ℕ) (w₁ w₂ : ℕ → ℚ)
    (hd : ∀ i, d₁ i = d₂ i) (hw : ∀ i, w₁ i = w₂ i) :
    run_sim Y S d₁ w₁ = run_sim Y S d₂ w₂ := by
  have hd2 : d₁ = d₂ := funext hd
  have hw2 : w₁ = w₂ := funext hw
  rw [hd2, hw2]

/-- C10: `run_sim` always simulates the fixed configuration — the
environment is constructed with 1000 households of 2 persons, the default
policy is `ubi_amount = 100000`, `income_tax_rate = 0.2`, every
constructed household has `poverty_line = 200000`, and every step uses
`basic_need = 150000`; the arguments of `run_sim` only set the number of
steps. -/
theorem run_sim_fixed_configuration (Y S : ℕ) (d : ℕ → ℕ) (w : ℕ → ℚ) :
    run_sim Y S d w = runLoop (Y * S) (Environment.init 1000 2 d w) ∧
    (Environment.init 1000 2 d w).policy =
      { ubi_amount := 100000, income_tax_rate := 1/5 } ∧
    (∀ (n pk : ℕ) (d2 : ℕ → ℕ) (w2 : ℕ → ℚ),
      ∀ hh ∈ (Environment.init n pk d2 w2).households,
        hh.2.poverty_line = 200000) ∧
    (∀ env : Environment, env.step = env.stepWith 150000) := by
  refine ⟨rfl, rfl, ?_, fun _ => rfl⟩
  intro n pk d2 w2 hh hmem
  simp only [Environment.init] at hmem
  obtain ⟨hid, -, heq⟩ := List.mem_map.mp hmem
  rw [← heq]

theorem envW_step_eq : envW.step = some envW2 := by
  norm_num [envW, envW2, pZero, Environment.step, Environment.stepWith, updateAll,
    Person.step, aggregateAll, Household.aggregate, laborIncomeSum, List.lookup_cons]

theorem step_aggregation_consistency_witness :
    envW.step = some envW2 ∧
      laborIncomeSum envW2.persons [0] = some (0 : ℚ) :=
  ⟨envW_step_eq, step_aggregation_consistency envW envW2 envW_step_eq
    (0, { id := 0, member_ids := [0], income := 0 }) (List.mem_cons_self _ _)⟩

theorem run_sim_length_and_bounds_witness :
    0 < 1 ∧ (∃ l, run_sim 1 1 (fun _ => 30) (fun _ => 1500) = some l ∧
      l.length = 1 * 1 ∧ ∀ r ∈ l, 0 ≤ r ∧ r ≤ 1) :=
  ⟨Nat.one_pos,
    run_sim_length_and_bounds 1 1 (fun _ => 30) (fun _ => 1500)
      Nat.one_pos Nat.one_pos⟩

theorem work_hours_wage_invariant_witness :
    stepN 0 (Environment.init 1 1 (fun _ => 30) (fun _ => 1500)) =
      some (Environment.init 1 1 (fun _ => 30) (fun _ => 1500)) ∧
    ∀ pp ∈ (Environment.init 1 1 (fun _ => 30) (fun _ => 1500)).persons,
      0 ≤ pp.2.work_hours ∧ pp.2.work_hours ≤ 60 ∧ 600 ≤ pp.2.hourly_wage :=
  ⟨rfl, work_hours_wage_invariant 1 1 (fun _ => 30) (fun _ => 1500) 0 _ rfl⟩

theorem person_step_saving_monotone_witness :
    0 ≤ stepDisposable pZero {} 150000 ∧
      pZero.saving ≤ (pZero.step {} [] 150000).saving :=
  ⟨by norm_num [stepDisposable, stepIncomeTotal, stepWorkHours, pZero],
    (person_step_saving_monotone pZero {} [] 150000).2.1
      (by norm_num [stepDisposable, stepIncomeTotal, stepWorkHours, pZero])⟩

theorem step_order_independent_witness :
    ([(0, pZero), (1, pOne)].Perm [(1, pOne), (0, pZero)]) ∧
    (([(0, pZero), (1, pOne)].map Prod.fst).Nodup) ∧
    (∀ h : Household,
      h.aggregate (updateAll {} [] 150000 [(0, pZero), (1, pOne)]) =
        h.aggregate (updateAll {} [] 150000 [(1, pOne), (0, pZero)])) :=
  ⟨List.Perm.swap (1, pOne) (0, pZero) [], by decide,
    (step_order_independent {} 150000 [(0, pZero), (1, pOne)]
      [(1, pOne), (0, pZero)] (List.Perm.swap (1, pOne) (0, pZero) [])
      (by decide)).2.2⟩

theorem ubi_covers_need_decay_witness :
    polUBI.ubi_amount = 150000 ∧ pScen.work_hours = 40 ∧
      (Person.stepN polUBI [] 150000 3 pScen).work_hours = 40 * (7/10 : ℚ) ^ 3 :=
  ⟨rfl, rfl, (ubi_covers_need_decay polUBI [] pScen 3 rfl rfl).2.2.1⟩

theorem run_sim_deterministic_witness :
    run_sim 2 3 (fun _ => 25) (fun _ => 700) =
      run_sim 2 3 (fun _ => 25) (fun _ => 700) :=
  run_sim_deterministic 2 3 (fun _ => 25) (fun _ => 25)
    (fun _ => 700) (fun _ => 700) (fun _ => rfl) (fun _ => rfl)

end UbiSim
